import Mathlib

/-!
# Verification of the mandelart rendering pipeline

Shallow embedding of the two source files of the `mandelart` repository:
`src/mandelbrot.rs` (escape-time evaluator and color mapper) and
`src/main.rs` (frame generator `gen_image` and the batched frame scheduler
in `main`).  Rust `f64` arithmetic is embedded as exact rational arithmetic
(`ℚ`), which preserves the control structure of every loop; `u32` values are
embedded as `ℕ` (no arithmetic in the embedded code can overflow `u32`
ranges on the inputs considered).  Byte buffers (`Vec<u8>`) are embedded as
`List ℕ` whose entries are byte values.
-/

namespace Mandelart

/-- `const MAX_ATTEMPTS: u32 = 4000;` from src/mandelbrot.rs. -/
def MAX_ATTEMPTS : ℕ := 4000

/-- `fn recursion(z_real, z_imag, x, y)` from src/mandelbrot.rs:
one step of `z ← z² + c` on real/imaginary parts. -/
def recursion (z_real z_imag x y : ℚ) : ℚ × ℚ :=
  (z_real ^ 2 - z_imag ^ 2 + x, 2 * z_real * z_imag + y)

/-- The loop body of `fn escape_time` from src/mandelbrot.rs:
`n` is the current loop counter of `for n in 0..MAX_ATTEMPTS`, `fuel` the
number of remaining loop iterations. -/
def escapeLoop (x y : ℚ) : ℚ → ℚ → ℕ → ℕ → Option ℕ
  | _, _, _, 0 => none
  | z_real, z_imag, n, fuel + 1 =>
      let z := recursion z_real z_imag x y
      if z.1 ^ 2 + z.2 ^ 2 ≥ 4 then some n
      else escapeLoop x y z.1 z.2 (n + 1) fuel

/-- `fn escape_time(x, y)` from src/mandelbrot.rs: iterate `z ← z² + c`
from `z = 0` for up to `MAX_ATTEMPTS` steps, returning the loop index at
which `|z|² ≥ 4` first holds, else `None`. -/
def escape_time (x y : ℚ) : Option ℕ :=
  escapeLoop x y 0 0 0 MAX_ATTEMPTS

/-- `fn colorize(e_time)` from src/mandelbrot.rs. -/
def colorize (e_time : ℕ) : ℕ × ℕ × ℕ :=
  let half_time := e_time / 2
  let red := min half_time 255
  let green := if half_time < 256 then 0 else min half_time 255
  let blue := if half_time < 512 then 0 else min half_time 255
  (red, green, blue)

/-- The `match` in `fn color_point` from src/mandelbrot.rs, mapping an
escape result to a color. -/
def colorResult : Option ℕ → ℕ × ℕ × ℕ
  | some t => colorize t
  | none => (0, 0, 0)

/-- `fn color_point(x, y)` from src/mandelbrot.rs. -/
def color_point (x y : ℚ) : ℕ × ℕ × ℕ :=
  colorResult (escape_time x y)

/-! ## Specification-side helpers for the evaluator -/

/-- The mathematical orbit `z₀ = 0`, `z_{k+1} = z_k² + c` of the quadratic
map at `c = (x, y)` (specification-side description of the iteration). -/
def zSeq (x y : ℚ) : ℕ → ℚ × ℚ
  | 0 => (0, 0)
  | k + 1 =>
      let z := zSeq x y k
      recursion z.1 z.2 x y

/-- Squared modulus of a complex number given as a real/imaginary pair. -/
def normSq (z : ℚ × ℚ) : ℚ := z.1 ^ 2 + z.2 ^ 2

/-! ## The frame generator `gen_image` from src/main.rs

The Rust function threads an `Algorithm` argument whose sole variant is
`Mandelbrot`; the `match` on it selects `mandelbrot::color_point`, so the
embedding specializes the per-pixel color to `color_point` directly. -/

/-- The three bytes `color.0, color.1, color.2` pushed per pixel. -/
def colorBytes (color : ℕ × ℕ × ℕ) : List ℕ :=
  [color.1, color.2.1, color.2.2]

/-- The inner loop `for _w in 0..width` of `fn gen_image`: emit the three
color bytes of the pixel at the running coordinate `(x, y)`, then
`x += step_size`. -/
def renderRow (y step_size : ℚ) : ℚ → ℕ → List ℕ
  | _, 0 => []
  | x, w + 1 =>
      colorBytes (color_point x y) ++ renderRow y step_size (x + step_size) w

/-- The outer loop `for _h in 0..height` of `fn gen_image`: render one row
starting at `x = start_x`, then `y -= step_size`. -/
def renderRows (start_x step_size : ℚ) (width : ℕ) : ℚ → ℕ → List ℕ
  | _, 0 => []
  | y, h + 1 =>
      renderRow y step_size start_x width ++
        renderRows start_x step_size width (y - step_size) h

/-- The bytes of `format!("P6\n{} {}\n255\n", width, height)` pushed at the
head of the buffer by `fn gen_image`. -/
def headerBytes (width height : ℕ) : List ℕ :=
  (("P6\n" ++ toString width ++ " " ++ toString height ++ "\n255\n").toList).map
    Char.toNat

/-- `fn gen_image(focus_x, focus_y, range, width, height, algorithm)` from
src/main.rs: header, then the row-major pixel bytes, then one `b"\n"`
(byte 10). -/
def gen_image (focus_x focus_y range : ℚ) (width height : ℕ) : List ℕ :=
  let step_size := range / (width : ℚ)
  let start_x := focus_x - range / 2
  headerBytes width height ++
    renderRows start_x step_size width
      (focus_y + step_size * (height : ℚ) / 2) height ++ [10]

/-! ## The frame scheduler `fn main` from src/main.rs

The scheduler is embedded by its data flow: each spawned worker computes
`gen_image` on the (copied) viewport it was handed and sends the buffer on
its dedicated one-shot channel, so the value obtained by `rx.recv()` for a
slot is exactly that slot's buffer, independent of the interleaving of the
workers; only timing, which is not observable in the byte stream, is
abstracted away. -/

/-- Configuration consumed by `fn main` (produced by `parse_args`, which is
out of scope): focus coordinate, range, pixel dimensions, zoom factor,
frame count and worker-thread count. -/
structure Config where
  focus_x : ℚ
  focus_y : ℚ
  range : ℚ
  width : ℕ
  height : ℕ
  zoom : ℚ
  frames : ℕ
  threads : ℕ

/-- The spawn loop `for _y in 0..threads` (and identically
`for _y in 0..remainder`) of `fn main`: dispatch `count` tasks; the task
with global frame index `k` renders `gen_image` at the current `range`,
after which the scheduler does `range *= zoom`.  Returns the slot list in
dispatch order — each slot paired with its frame index and the buffer its
channel delivers — together with the final `range`. -/
def spawnBatch (focus_x focus_y : ℚ) (width height : ℕ) (zoom : ℚ) :
    ℕ → ℚ → ℕ → List (ℕ × List ℕ) × ℚ
  | _, range, 0 => ([], range)
  | k, range, count + 1 =>
      let buffer := gen_image focus_x focus_y range width height
      let rest :=
        spawnBatch focus_x focus_y width height zoom (k + 1) (range * zoom) count
      ((k, buffer) :: rest.1, rest.2)

/-- The loop `for _i in 0..full_multiprocess_loops` of `fn main`: run
`loops` full batches of `threads` tasks each, threading the running `range`
from batch to batch; `k` is the global frame index of the next slot. -/
def runLoops (focus_x focus_y : ℚ) (width height : ℕ) (zoom : ℚ)
    (threads : ℕ) : ℕ → ℚ → ℕ → List (List (ℕ × List ℕ)) × ℚ
  | _, range, 0 => ([], range)
  | k, range, loops + 1 =>
      let batch := spawnBatch focus_x focus_y width height zoom k range threads
      let rest :=
        runLoops focus_x focus_y width height zoom threads
          (k + threads) batch.2 loops
      (batch.1 :: rest.1, rest.2)

/-- The batch structure of `fn main`:
`full_multiprocess_loops = frames / threads` full batches of size
`threads`, followed by the remainder batch of
`frames - full_multiprocess_loops * threads` tasks. -/
def mainBatches (cfg : Config) : List (List (ℕ × List ℕ)) :=
  let full_multiprocess_loops := cfg.frames / cfg.threads
  let remainder := cfg.frames - full_multiprocess_loops * cfg.threads
  let p :=
    runLoops cfg.focus_x cfg.focus_y cfg.width cfg.height cfg.zoom cfg.threads
      0 cfg.range full_multiprocess_loops
  let q :=
    spawnBatch cfg.focus_x cfg.focus_y cfg.width cfg.height cfg.zoom
      (full_multiprocess_loops * cfg.threads) p.2 remainder
  p.1 ++ [q.1]

/-- The byte stream `fn main` writes to stdout: after each batch is
spawned, the gather loop `for rx in channels` writes every slot's buffer in
dispatch order. -/
def mainOutput (cfg : Config) : List ℕ :=
  ((mainBatches cfg).map fun batch => (batch.map Prod.snd).flatten).flatten

/-! ## Specification-side descriptions of the scheduler -/

/-- Specification-side: the buffer of frame `k`, rendered at range
`range × zoom^k` with the focus coordinate unchanged. -/
def frameBuffer (cfg : Config) (k : ℕ) : List ℕ :=
  gen_image cfg.focus_x cfg.focus_y (cfg.range * cfg.zoom ^ k)
    cfg.width cfg.height

/-- Specification-side: `k` successive applications of the zoom step
`range *= zoom` of the Zoom Sequencer. -/
def zoomIter (range zoom : ℚ) : ℕ → ℚ
  | 0 => range
  | k + 1 => zoomIter range zoom k * zoom

/-! ## The scheduler with explicit failure points

The gather loop `for rx in channels { let buffer = rx.recv().unwrap();
io::stdout().write_all(&buffer[..]).expect(...) }` has two panic sites per
slot: `unwrap` on a disconnected result channel (the slot's worker died
before sending) and `expect` on a failed stdout write.  `failRecv k` and
`failWrite k` make the environment's choice at frame `k` explicit; a panic
aborts the whole process, so nothing after the panicking slot is written
and no further batch is spawned. -/

/-- The gather loop over one batch: on the first slot whose receive or
write fails, stop with `some k` (the panicking frame index) having written
nothing for that slot; otherwise write every buffer in dispatch order and
finish with `none`. -/
def gatherBatch (failRecv failWrite : ℕ → Bool) :
    List (ℕ × List ℕ) → List ℕ × Option ℕ
  | [] => ([], none)
  | (k, buffer) :: rest =>
      if failRecv k then ([], some k)
      else if failWrite k then ([], some k)
      else
        let p := gatherBatch failRecv failWrite rest
        (buffer ++ p.1, p.2)

/-- The full-batch loop of `fn main` with failure points: spawn a batch,
gather it, and continue with the next batch only if no slot panicked.
Returns the bytes written, the panicking frame index (if any), and the
running `range` after the last spawned batch. -/
def runLoopsF (focus_x focus_y : ℚ) (width height : ℕ) (zoom : ℚ)
    (threads : ℕ) (failRecv failWrite : ℕ → Bool) :
    ℕ → ℚ → ℕ → List ℕ × Option ℕ × ℚ
  | _, range, 0 => ([], none, range)
  | k, range, loops + 1 =>
      let batch := spawnBatch focus_x focus_y width height zoom k range threads
      let g := gatherBatch failRecv failWrite batch.1
      match g.2 with
      | some j => (g.1, some j, batch.2)
      | none =>
          let rest :=
            runLoopsF focus_x focus_y width height zoom threads
              failRecv failWrite (k + threads) batch.2 loops
          (g.1 ++ rest.1, rest.2)

/-- `fn main` with failure points: run the full batches, then — only if no
slot panicked — spawn and gather the remainder batch.  Returns the bytes
written to stdout and the panicking frame index, if any. -/
def mainRunF (cfg : Config) (failRecv failWrite : ℕ → Bool) :
    List ℕ × Option ℕ :=
  let full_multiprocess_loops := cfg.frames / cfg.threads
  let remainder := cfg.frames - full_multiprocess_loops * cfg.threads
  let p :=
    runLoopsF cfg.focus_x cfg.focus_y cfg.width cfg.height cfg.zoom
      cfg.threads failRecv failWrite 0 cfg.range full_multiprocess_loops
  match p.2.1 with
  | some j => (p.1, some j)
  | none =>
      let q :=
        spawnBatch cfg.focus_x cfg.focus_y cfg.width cfg.height cfg.zoom
          (full_multiprocess_loops * cfg.threads) p.2.2 remainder
      let g := gatherBatch failRecv failWrite q.1
      (p.1 ++ g.1, g.2)

/-! ## Theorems: the escape-time evaluator -/

theorem escapeLoop_zero (x y z_real z_imag : ℚ) (n : ℕ) :
    escapeLoop x y z_real z_imag n 0 = none := rfl

theorem escapeLoop_succ (x y z_real z_imag : ℚ) (n fuel : ℕ) :
    escapeLoop x y z_real z_imag n (fuel + 1) =
      if 4 ≤ normSq (recursion z_real z_imag x y) then some n
      else
        escapeLoop x y (recursion z_real z_imag x y).1
          (recursion z_real z_imag x y).2 (n + 1) fuel := rfl

theorem zSeq_succ (x y : ℚ) (n : ℕ) :
    zSeq x y (n + 1) = recursion (zSeq x y n).1 (zSeq x y n).2 x y := rfl

theorem escapeLoop_some_iff (x y : ℚ) (fuel : ℕ) :
    ∀ n m : ℕ,
      escapeLoop x y (zSeq x y n).1 (zSeq x y n).2 n fuel = some m ↔
        n ≤ m ∧ m < n + fuel ∧ 4 ≤ normSq (zSeq x y (m + 1)) ∧
          ∀ j, n ≤ j → j < m → normSq (zSeq x y (j + 1)) < 4 := by
  induction fuel with
  | zero =>
      intro n m
      rw [escapeLoop_zero]
      constructor
      · intro h; exact absurd h (by simp)
      · rintro ⟨h1, h2, -, -⟩; omega
  | succ fuel ih =>
      intro n m
      rw [escapeLoop_succ, ← zSeq_succ]
      by_cases hc : (4 : ℚ) ≤ normSq (zSeq x y (n + 1))
      · rw [if_pos hc]
        constructor
        · intro h
          obtain rfl : n = m := by simpa using h
          exact ⟨le_refl n, by omega, hc, fun j hj1 hj2 => absurd hj2 (by omega)⟩
        · rintro ⟨h1, h2, h3, h4⟩
          obtain rfl : m = n := by
            by_contra hne
            exact absurd hc (not_le.mpr (h4 n le_rfl (by omega)))
          rfl
      · rw [if_neg hc]
        have hlt : normSq (zSeq x y (n + 1)) < 4 := not_le.mp hc
        rw [ih (n + 1) m]
        constructor
        · rintro ⟨h1, h2, h3, h4⟩
          refine ⟨by omega, by omega, h3, fun j hj1 hj2 => ?_⟩
          rcases Nat.eq_or_lt_of_le hj1 with rfl | hj
          · exact hlt
          · exact h4 j (by omega) hj2
        · rintro ⟨h1, h2, h3, h4⟩
          have hm : n ≠ m := by
            rintro rfl
            exact absurd h3 (not_le.mpr hlt)
          exact ⟨by omega, by omega, h3, fun j hj1 hj2 => h4 j (by omega) hj2⟩

theorem escapeLoop_none_iff (x y : ℚ) (fuel : ℕ) :
    ∀ n : ℕ,
      escapeLoop x y (zSeq x y n).1 (zSeq x y n).2 n fuel = none ↔
        ∀ j, n ≤ j → j < n + fuel → normSq (zSeq x y (j + 1)) < 4 := by
  induction fuel with
  | zero =>
      intro n
      rw [escapeLoop_zero]
      constructor
      · intro _ j h1 h2; exact absurd h2 (by omega)
      · intro _; rfl
  | succ fuel ih =>
      intro n
      rw [escapeLoop_succ, ← zSeq_succ]
      by_cases hc : (4 : ℚ) ≤ normSq (zSeq x y (n + 1))
      · rw [if_pos hc]
        constructor
        · intro h; exact absurd h (by simp)
        · intro h
          exact absurd (h n le_rfl (by omega)) (not_lt.mpr hc)
      · rw [if_neg hc]
        have hlt : normSq (zSeq x y (n + 1)) < 4 := not_le.mp hc
        rw [ih (n + 1)]
        constructor
        · intro h j hj1 hj2
          rcases Nat.eq_or_lt_of_le hj1 with rfl | hj
          · exact hlt
          · exact h j (by omega) (by omega)
        · intro h j hj1 hj2
          exact h j (by omega) (by omega)

/-- C2: `escape_time` iterates `z ← z² + c` from `z = 0` for at most
`MAX_ATTEMPTS = 4000` steps and returns the 0-based index of the first step
after which `|z|² ≥ 4`; if no step within 4000 iterations satisfies this it
returns `none` ("bounded").  Purity and determinism hold by construction:
the evaluator is a total function of the coordinate. -/
theorem escape_time_spec (x y : ℚ) :
    (∀ n, escape_time x y = some n ↔
        n < MAX_ATTEMPTS ∧ 4 ≤ normSq (zSeq x y (n + 1)) ∧
          ∀ m, m < n → normSq (zSeq x y (m + 1)) < 4) ∧
    (escape_time x y = none ↔
        ∀ n, n < MAX_ATTEMPTS → normSq (zSeq x y (n + 1)) < 4) := by
  constructor
  · intro n
    have h := escapeLoop_some_iff x y MAX_ATTEMPTS 0 n
    rw [escape_time]
    simpa [zSeq] using h
  · have h := escapeLoop_none_iff x y MAX_ATTEMPTS 0
    rw [escape_time]
    simpa [zSeq] using h

theorem escape_time_at_two : escape_time 2 2 = some 0 := by
  rw [escape_time, show MAX_ATTEMPTS = 3999 + 1 from rfl, escapeLoop_succ]
  norm_num [recursion, normSq]

/-- Witness for C2: at `c = (2, 2)` the evaluator escapes at step 0. -/
theorem escape_time_spec_witness : escape_time 2 2 = some 0 :=
  ((escape_time_spec 2 2).1 0).mpr
    ⟨by norm_num [MAX_ATTEMPTS],
     by norm_num [show zSeq 2 2 1 = recursion 0 0 2 2 from rfl, recursion, normSq],
     fun m hm => absurd hm (by omega)⟩

/-! ## Theorems: the color mapper -/

/-- C3: the color mapper sends "bounded" to `(0, 0, 0)`; for a point that
escaped at iteration `n` it computes `h = n / 2` by integer division and
returns `red = min h 255`, `green = 0` if `h < 256` else `min h 255`,
`blue = 0` if `h < 512` else `min h 255`. -/
theorem color_point_spec (x y : ℚ) :
    (escape_time x y = none → color_point x y = (0, 0, 0)) ∧
    ∀ n, escape_time x y = some n →
      color_point x y =
        (min (n / 2) 255,
         if n / 2 < 256 then 0 else min (n / 2) 255,
         if n / 2 < 512 then 0 else min (n / 2) 255) := by
  constructor
  · intro h; rw [color_point, h]; rfl
  · intro n h; rw [color_point, h]; rfl

/-- Witness for C3: at `c = (2, 2)` (escape at 0, `h = 0`) the mapper
yields `(0, 0, 0)`. -/
theorem color_point_spec_witness : color_point 2 2 = (0, 0, 0) := by
  have h := (color_point_spec 2 2).2 0 escape_time_at_two
  simpa using h

/-- C8: each RGB channel of the color mapper is monotone non-decreasing in
the escape iteration count (below the 4000 cap), up to saturation at
255. -/
theorem colorize_monotone (n1 n2 : ℕ) (h12 : n1 ≤ n2)
    (h2 : n2 < MAX_ATTEMPTS) :
    (colorize n1).1 ≤ (colorize n2).1 ∧
      (colorize n1).2.1 ≤ (colorize n2).2.1 ∧
      (colorize n1).2.2 ≤ (colorize n2).2.2 := by
  simp only [colorize]
  refine ⟨?_, ?_, ?_⟩
  · omega
  · split_ifs <;> omega
  · split_ifs <;> omega

/-- Witness for C8 at `n1 = 100`, `n2 = 600`. -/
theorem colorize_monotone_witness :
    (100 : ℕ) ≤ 600 ∧ (600 : ℕ) < MAX_ATTEMPTS ∧
      (colorize 100).1 ≤ (colorize 600).1 ∧
      (colorize 100).2.1 ≤ (colorize 600).2.1 ∧
      (colorize 100).2.2 ≤ (colorize 600).2.2 :=
  ⟨by norm_num, by norm_num [MAX_ATTEMPTS],
   colorize_monotone 100 600 (by norm_num) (by norm_num [MAX_ATTEMPTS])⟩

theorem escape_time_lt (x y : ℚ) (n : ℕ) (h : escape_time x y = some n) :
    n < MAX_ATTEMPTS := by
  have h2 :=
    (escapeLoop_some_iff x y MAX_ATTEMPTS 0 n).mp
      (by simpa [zSeq, escape_time] using h)
  omega

/-- C10: for every iteration count `n` actually returned by the evaluator
(`n < 4000`, so `h = n / 2 < 2000`), the green channel is `0` for
`h < 256` and exactly `255` otherwise, and the blue channel is `0` for
`h < 512` and exactly `255` otherwise: each takes only the two values `0`
and `255`, jumping in a single step at its threshold. -/
theorem colorize_threshold_jump (x y : ℚ) (n : ℕ)
    (h : escape_time x y = some n) :
    n < MAX_ATTEMPTS ∧
      (colorize n).2.1 = (if n / 2 < 256 then 0 else 255) ∧
      (colorize n).2.2 = (if n / 2 < 512 then 0 else 255) ∧
      ((colorize n).2.1 = 0 ∨ (colorize n).2.1 = 255) ∧
      ((colorize n).2.2 = 0 ∨ (colorize n).2.2 = 255) := by
  refine ⟨escape_time_lt x y n h, ?_, ?_, ?_, ?_⟩ <;>
    · simp only [colorize]
      split_ifs <;> omega

/-- Witness for C10 at `c = (2, 2)`, `n = 0`. -/
theorem colorize_threshold_jump_witness :
    (0 : ℕ) < MAX_ATTEMPTS ∧
      (colorize 0).2.1 = (if 0 / 2 < 256 then 0 else 255) :=
  ⟨(colorize_threshold_jump 2 2 0 escape_time_at_two).1,
   (colorize_threshold_jump 2 2 0 escape_time_at_two).2.1⟩

/-! ## Theorems: the frame generator -/

theorem renderRow_zero (y step_size x : ℚ) : renderRow y step_size x 0 = [] :=
  rfl

theorem renderRow_succ (y step_size x : ℚ) (w : ℕ) :
    renderRow y step_size x (w + 1) =
      colorBytes (color_point x y) ++ renderRow y step_size (x + step_size) w :=
  rfl

theorem renderRows_zero (start_x step_size : ℚ) (width : ℕ) (y : ℚ) :
    renderRows start_x step_size width y 0 = [] := rfl

theorem renderRows_succ (start_x step_size : ℚ) (width : ℕ) (y : ℚ) (h : ℕ) :
    renderRows start_x step_size width y (h + 1) =
      renderRow y step_size start_x width ++
        renderRows start_x step_size width (y - step_size) h := rfl

theorem renderRow_length (y step_size : ℚ) (w : ℕ) (x : ℚ) :
    (renderRow y step_size x w).length = 3 * w := by
  induction w generalizing x with
  | zero => rfl
  | succ w ih =>
      rw [renderRow_succ, List.length_append, ih]
      simp [colorBytes]
      omega

theorem renderRows_length (start_x step_size : ℚ) (width h : ℕ) (y : ℚ) :
    (renderRows start_x step_size width y h).length = h * (3 * width) := by
  induction h generalizing y with
  | zero => simp [renderRows_zero]
  | succ h ih =>
      rw [renderRows_succ, List.length_append, renderRow_length, ih]
      ring

theorem renderRow_eq (y step_size : ℚ) (w : ℕ) (x : ℚ) :
    renderRow y step_size x w =
      ((List.range w).map fun j : ℕ =>
        colorBytes (color_point (x + (j : ℚ) * step_size) y)).flatten := by
  induction w generalizing x with
  | zero => rfl
  | succ w ih =>
      rw [renderRow_succ, ih, List.range_succ_eq_map, List.map_cons,
        List.flatten_cons, List.map_map]
      congr 1
      · norm_num
      · congr 1
        apply List.map_congr_left
        intro j hj
        simp only [Function.comp_apply]
        congr 2
        push_cast
        ring

theorem renderRows_eq (start_x step_size : ℚ) (width h : ℕ) (y : ℚ) :
    renderRows start_x step_size width y h =
      ((List.range h).map fun i : ℕ =>
        renderRow (y - (i : ℚ) * step_size) step_size start_x width).flatten := by
  induction h generalizing y with
  | zero => rfl
  | succ h ih =>
      rw [renderRows_succ, ih, List.range_succ_eq_map, List.map_cons,
        List.flatten_cons, List.map_map]
      congr 1
      · norm_num
      · congr 1
        apply List.map_congr_left
        intro j hj
        simp only [Function.comp_apply]
        have harg : y - step_size - (j : ℚ) * step_size =
            y - (Nat.succ j : ℚ) * step_size := by
          push_cast
          ring
        rw [harg]

theorem headerBytes_eq (width height : ℕ) :
    headerBytes width height =
      [80, 54, 10] ++ (Nat.toDigits 10 width).map Char.toNat ++ [32] ++
        (Nat.toDigits 10 height).map Char.toNat ++ [10, 50, 53, 53, 10] := by
  have happ : ∀ a b : String, (a ++ b).toList = a.toList ++ b.toList :=
    fun a b => String.data_append a b
  rw [headerBytes, happ, happ, happ, happ,
    show (toString width).toList = Nat.toDigits 10 width from rfl,
    show (toString height).toList = Nat.toDigits 10 height from rfl]
  simp [List.map_append]

/-- C4: for valid dimensions, the frame buffer is the ASCII header
`"P6\n{width} {height}\n255\n"`, then `width*height*3` pixel bytes, then a
single trailing newline byte (10); in total
`len(header) + width*height*3 + 1` bytes. -/
theorem gen_image_layout (focus_x focus_y range : ℚ) (width height : ℕ)
    (hw : 0 < width) (hh : 0 < height) :
    ∃ pixels : List ℕ,
      gen_image focus_x focus_y range width height =
          headerBytes width height ++ pixels ++ [10] ∧
        pixels.length = width * height * 3 ∧
        (gen_image focus_x focus_y range width height).length =
          (headerBytes width height).length + width * height * 3 + 1 ∧
        headerBytes width height =
          [80, 54, 10] ++ (Nat.toDigits 10 width).map Char.toNat ++ [32] ++
            (Nat.toDigits 10 height).map Char.toNat ++ [10, 50, 53, 53, 10] := by
  refine ⟨renderRows (focus_x - range / 2) (range / (width : ℚ)) width
      (focus_y + range / (width : ℚ) * (height : ℚ) / 2) height,
    rfl, ?_, ?_, headerBytes_eq width height⟩
  · rw [renderRows_length]; ring
  · simp only [gen_image, List.length_append, renderRows_length,
      List.length_singleton]
    ring

/-- Witness for C4 at `width = 2`, `height = 1`. -/
theorem gen_image_layout_witness :
    (0 : ℕ) < 2 ∧ (0 : ℕ) < 1 ∧
      ∃ pixels : List ℕ,
        gen_image 0 0 4 2 1 = headerBytes 2 1 ++ pixels ++ [10] ∧
          pixels.length = 2 * 1 * 3 ∧
          (gen_image 0 0 4 2 1).length =
            (headerBytes 2 1).length + 2 * 1 * 3 + 1 ∧
          headerBytes 2 1 =
            [80, 54, 10] ++ (Nat.toDigits 10 2).map Char.toNat ++ [32] ++
              (Nat.toDigits 10 1).map Char.toNat ++ [10, 50, 53, 53, 10] :=
  ⟨by norm_num, by norm_num, gen_image_layout 0 0 4 2 1 (by norm_num) (by norm_num)⟩

/-- C5: the frame generator samples with `step = range / width`, column `j`
of each row at `start_x + j·step` where `start_x = focus_x - range/2`, row
`i` at `y₀ - i·step` where `y₀ = focus_y + step·height/2`, and appends the
three color bytes per pixel in row-major order (top-to-bottom,
left-to-right) between the header and the trailing newline. -/
theorem gen_image_sampling (focus_x focus_y range : ℚ) (width height : ℕ) :
    gen_image focus_x focus_y range width height =
      headerBytes width height ++
        ((List.range height).map fun i : ℕ =>
          ((List.range width).map fun j : ℕ =>
            colorBytes (color_point
              (focus_x - range / 2 + (j : ℚ) * (range / (width : ℚ)))
              (focus_y + range / (width : ℚ) * (height : ℚ) / 2 -
                (i : ℚ) * (range / (width : ℚ))))).flatten).flatten ++ [10] := by
  simp only [gen_image, renderRows_eq, renderRow_eq]

/-! ## Theorems: the frame scheduler -/

theorem spawnBatch_zero (focus_x focus_y : ℚ) (width height : ℕ) (zoom : ℚ)
    (k : ℕ) (range : ℚ) :
    spawnBatch focus_x focus_y width height zoom k range 0 = ([], range) := rfl

theorem spawnBatch_succ (focus_x focus_y : ℚ) (width height : ℕ) (zoom : ℚ)
    (k : ℕ) (range : ℚ) (count : ℕ) :
    spawnBatch focus_x focus_y width height zoom k range (count + 1) =
      ((k, gen_image focus_x focus_y range width height) ::
          (spawnBatch focus_x focus_y width height zoom
            (k + 1) (range * zoom) count).1,
        (spawnBatch focus_x focus_y width height zoom
          (k + 1) (range * zoom) count).2) := rfl

theorem spawnBatch_eq (focus_x focus_y : ℚ) (width height : ℕ) (zoom : ℚ)
    (count k : ℕ) (range : ℚ) :
    spawnBatch focus_x focus_y width height zoom k range count =
      ((List.range count).map fun i : ℕ =>
        (k + i, gen_image focus_x focus_y (range * zoom ^ i) width height),
       range * zoom ^ count) := by
  induction count generalizing k range with
  | zero => simp [spawnBatch_zero]
  | succ count ih =>
      rw [spawnBatch_succ, ih (k + 1) (range * zoom), List.range_succ_eq_map,
        List.map_cons, List.map_map]
      simp only [Prod.mk.injEq]
      constructor
      · congr 1
        · simp
        · apply List.map_congr_left
          intro i hi
          simp only [Function.comp_apply, Nat.succ_eq_add_one, Prod.mk.injEq]
          have harg : range * zoom * zoom ^ i = range * zoom ^ (i + 1) := by
            rw [pow_succ]
            ring
          exact ⟨by omega, by rw [harg]⟩
      · rw [pow_succ]
        ring

theorem runLoops_zero (focus_x focus_y : ℚ) (width height : ℕ) (zoom : ℚ)
    (threads k : ℕ) (range : ℚ) :
    runLoops focus_x focus_y width height zoom threads k range 0 =
      ([], range) := rfl

theorem runLoops_succ (focus_x focus_y : ℚ) (width height : ℕ) (zoom : ℚ)
    (threads k : ℕ) (range : ℚ) (loops : ℕ) :
    runLoops focus_x focus_y width height zoom threads k range (loops + 1) =
      ((spawnBatch focus_x focus_y width height zoom k range threads).1 ::
          (runLoops focus_x focus_y width height zoom threads (k + threads)
            (spawnBatch focus_x focus_y width height zoom k range threads).2
            loops).1,
        (runLoops focus_x focus_y width height zoom threads (k + threads)
          (spawnBatch focus_x focus_y width height zoom k range threads).2
          loops).2) := rfl

theorem runLoops_eq (focus_x focus_y : ℚ) (width height : ℕ) (zoom : ℚ)
    (threads : ℕ) (loops k : ℕ) (range : ℚ) :
    runLoops focus_x focus_y width height zoom threads k range loops =
      ((List.range loops).map fun b : ℕ =>
        (List.range threads).map fun i : ℕ =>
          (k + (b * threads + i),
           gen_image focus_x focus_y (range * zoom ^ (b * threads + i))
             width height),
       range * zoom ^ (loops * threads)) := by
  induction loops generalizing k range with
  | zero => simp [runLoops_zero]
  | succ loops ih =>
      rw [runLoops_succ, spawnBatch_eq,
        ih (k + threads) (range * zoom ^ threads), List.range_succ_eq_map,
        List.map_cons, List.map_map]
      simp only [Prod.mk.injEq]
      constructor
      · congr 1
        · apply List.map_congr_left
          intro i hi
          simp only [Prod.mk.injEq]
          constructor
          · omega
          · norm_num
        · apply List.map_congr_left
          intro b hb
          simp only [Function.comp_apply, Nat.succ_eq_add_one]
          apply List.map_congr_left
          intro i hi
          simp only [Prod.mk.injEq]
          have he : threads + (b * threads + i) = (b + 1) * threads + i := by
            ring
          have harg : range * zoom ^ threads * zoom ^ (b * threads + i) =
              range * zoom ^ ((b + 1) * threads + i) := by
            rw [mul_assoc, ← pow_add, he]
          exact ⟨by omega, by rw [harg]⟩
      · have he : threads + loops * threads = (loops + 1) * threads := by
          ring
        rw [mul_assoc, ← pow_add, he]

theorem flatten_range_mul {α : Type} (t l : ℕ) (f : ℕ → α) :
    ((List.range l).map fun b : ℕ =>
      (List.range t).map fun i : ℕ => f (b * t + i)).flatten =
      (List.range (l * t)).map f := by
  induction l generalizing f with
  | zero => simp
  | succ l ih =>
      rw [List.range_succ_eq_map, List.map_cons, List.flatten_cons,
        List.map_map]
      have h1 : (List.range l).map
          ((fun b : ℕ => (List.range t).map fun i : ℕ => f (b * t + i)) ∘
            Nat.succ) =
          (List.range l).map fun b : ℕ =>
            (List.range t).map fun i : ℕ => f (t + (b * t + i)) := by
        apply List.map_congr_left
        intro b hb
        simp only [Function.comp_apply, Nat.succ_eq_add_one]
        apply List.map_congr_left
        intro i hi
        congr 1
        ring
      rw [h1, ih fun j => f (t + j)]
      have h2 : ((List.range t).map fun i : ℕ => f (0 * t + i)) =
          (List.range t).map f := by
        apply List.map_congr_left
        intro i hi
        congr 1
        ring
      have h3 : Nat.succ l * t = t + l * t := by
        simp only [Nat.succ_eq_add_one]
        ring
      rw [h2, h3, List.range_add, List.map_append, List.map_map]
      rfl

theorem mainBatches_eq (cfg : Config) :
    mainBatches cfg =
      ((List.range (cfg.frames / cfg.threads)).map fun b : ℕ =>
        (List.range cfg.threads).map fun i : ℕ =>
          (b * cfg.threads + i, frameBuffer cfg (b * cfg.threads + i))) ++
        [(List.range
            (cfg.frames - cfg.frames / cfg.threads * cfg.threads)).map
          fun i : ℕ =>
            (cfg.frames / cfg.threads * cfg.threads + i,
             frameBuffer cfg
               (cfg.frames / cfg.threads * cfg.threads + i))] := by
  simp only [mainBatches, runLoops_eq, spawnBatch_eq, frameBuffer]
  congr 1
  · apply List.map_congr_left
    intro b hb
    apply List.map_congr_left
    intro i hi
    simp
  · apply (congrArg fun l => [l])
    apply List.map_congr_left
    intro i hi
    simp only [Prod.mk.injEq]
    refine ⟨trivial, ?_⟩
    rw [mul_assoc, ← pow_add]

theorem mainBatches_flatten (cfg : Config) :
    (mainBatches cfg).flatten =
      (List.range cfg.frames).map fun k : ℕ => (k, frameBuffer cfg k) := by
  have hle : cfg.frames / cfg.threads * cfg.threads ≤ cfg.frames :=
    Nat.div_mul_le_self cfg.frames cfg.threads
  have hsplit : ((List.range cfg.frames).map
      fun k : ℕ => (k, frameBuffer cfg k)) =
      ((List.range (cfg.frames / cfg.threads * cfg.threads)).map
          fun k : ℕ => (k, frameBuffer cfg k)) ++
        (List.range
            (cfg.frames - cfg.frames / cfg.threads * cfg.threads)).map
          fun i : ℕ =>
            (cfg.frames / cfg.threads * cfg.threads + i,
             frameBuffer cfg
               (cfg.frames / cfg.threads * cfg.threads + i)) := by
    conv_lhs =>
      rw [show cfg.frames = cfg.frames / cfg.threads * cfg.threads +
        (cfg.frames - cfg.frames / cfg.threads * cfg.threads) from by omega]
    rw [List.range_add, List.map_append, List.map_map]
    rfl
  rw [mainBatches_eq, List.flatten_append,
    flatten_range_mul cfg.threads (cfg.frames / cfg.threads)
      (fun k : ℕ => (k, frameBuffer cfg k)),
    hsplit]
  simp

theorem flatten_map_flatten {α β : Type} (g : α → List β)
    (L : List (List α)) :
    (L.map fun batch => (batch.map g).flatten).flatten =
      (L.flatten.map g).flatten := by
  induction L with
  | nil => rfl
  | cons b L ih => simp [ih]

theorem mainOutput_eq (cfg : Config) :
    mainOutput cfg = ((List.range cfg.frames).map (frameBuffer cfg)).flatten := by
  rw [mainOutput, flatten_map_flatten, mainBatches_flatten, List.map_map]
  rfl

/-- C1: for a fixed configuration the concatenated output byte stream is
identical for every worker-thread count `threads ≥ 1`: it always equals the
stream the strictly sequential single-worker scheduler (`threads = 1`)
produces. -/
theorem mainOutput_thread_count_invariant (cfg : Config)
    (ht : 1 ≤ cfg.threads) :
    mainOutput cfg = mainOutput { cfg with threads := 1 } := by
  rw [mainOutput_eq, mainOutput_eq]
  rfl

/-- Witness for C1 at a 1×1 two-frame configuration with `threads = 2`. -/
theorem mainOutput_thread_count_invariant_witness :
    1 ≤ (Config.mk 0 0 4 1 1 1 2 2).threads ∧
      mainOutput (Config.mk 0 0 4 1 1 1 2 2) =
        mainOutput { Config.mk 0 0 4 1 1 1 2 2 with threads := 1 } :=
  ⟨by norm_num, mainOutput_thread_count_invariant _ (by norm_num)⟩

/-- C6: the scheduler produces exactly `frames` buffers, organized as
`frames / threads` full batches of size `threads` followed by one final
batch of `frames % threads` slots (possibly empty); within each batch the
buffers sit in dispatch order, i.e. at strictly increasing frame indices,
and concatenating all batches lists the frame indices `0, …, frames-1` in
order. -/
theorem mainBatches_structure (cfg : Config) (ht : 1 ≤ cfg.threads) :
    mainBatches cfg =
        ((List.range (cfg.frames / cfg.threads)).map fun b : ℕ =>
          (List.range cfg.threads).map fun i : ℕ =>
            (b * cfg.threads + i, frameBuffer cfg (b * cfg.threads + i))) ++
          [(List.range (cfg.frames % cfg.threads)).map fun i : ℕ =>
            (cfg.frames / cfg.threads * cfg.threads + i,
             frameBuffer cfg (cfg.frames / cfg.threads * cfg.threads + i))] ∧
      (mainBatches cfg).flatten.length = cfg.frames ∧
      (mainBatches cfg).flatten.map Prod.fst = List.range cfg.frames := by
  have hmod : cfg.frames - cfg.frames / cfg.threads * cfg.threads =
      cfg.frames % cfg.threads :=
    Nat.sub_eq_of_eq_add (Nat.mod_add_div' cfg.frames cfg.threads).symm
  refine ⟨?_, ?_, ?_⟩
  · rw [mainBatches_eq, hmod]
  · rw [mainBatches_flatten]
    simp
  · rw [mainBatches_flatten, List.map_map]
    have hid : (Prod.fst ∘ fun k : ℕ => (k, frameBuffer cfg k)) = id := rfl
    rw [hid, List.map_id]

/-- Witness for C6 at `frames = 5`, `threads = 2`. -/
theorem mainBatches_structure_witness :
    1 ≤ (Config.mk 0 0 4 1 1 1 5 2).threads ∧
      (mainBatches (Config.mk 0 0 4 1 1 1 5 2)).flatten.length = 5 :=
  ⟨by norm_num, (mainBatches_structure _ (by norm_num)).2.1⟩

theorem zoomIter_eq (range zoom : ℚ) (k : ℕ) :
    zoomIter range zoom k = range * zoom ^ k := by
  induction k with
  | zero => simp [zoomIter]
  | succ k ih =>
      rw [zoomIter, ih, pow_succ]
      ring

/-- C7: after `k` successive applications of the zoom step starting from
`range₀`, the range equals `range₀ × zoom^k` (exactly, in the exact-
arithmetic embedding, hence within any floating-point tolerance); the zoom
step is applied exactly once per frame transition and the focus coordinate
is unchanged across all frames: the scheduler dispatches frame `k` at
range `zoomIter range₀ zoom k` with focus `(focus_x, focus_y)`. -/
theorem zoom_sequencer_spec (cfg : Config) :
    (∀ k : ℕ, zoomIter cfg.range cfg.zoom k = cfg.range * cfg.zoom ^ k) ∧
      (mainBatches cfg).flatten =
        (List.range cfg.frames).map fun k : ℕ =>
          (k, gen_image cfg.focus_x cfg.focus_y
            (zoomIter cfg.range cfg.zoom k) cfg.width cfg.height) := by
  refine ⟨fun k => zoomIter_eq cfg.range cfg.zoom k, ?_⟩
  rw [mainBatches_flatten]
  apply List.map_congr_left
  intro k hk
  rw [zoomIter_eq]
  rfl

/-! ## Theorems: failure semantics of the scheduler -/

theorem gatherBatch_nil (failRecv failWrite : ℕ → Bool) :
    gatherBatch failRecv failWrite [] = ([], none) := rfl

theorem gatherBatch_cons (failRecv failWrite : ℕ → Bool) (k : ℕ)
    (buffer : List ℕ) (rest : List (ℕ × List ℕ)) :
    gatherBatch failRecv failWrite ((k, buffer) :: rest) =
      if failRecv k then ([], some k)
      else if failWrite k then ([], some k)
      else (buffer ++ (gatherBatch failRecv failWrite rest).1,
        (gatherBatch failRecv failWrite rest).2) := rfl

theorem gatherBatch_ok (failRecv failWrite : ℕ → Bool)
    (l : List (ℕ × List ℕ))
    (h : ∀ p ∈ l, failRecv p.1 = false ∧ failWrite p.1 = false) :
    gatherBatch failRecv failWrite l = ((l.map Prod.snd).flatten, none) := by
  revert h
  induction l with
  | nil => intro h; rfl
  | cons p l ih =>
      intro h
      obtain ⟨k, buffer⟩ := p
      have hp := h (k, buffer) (List.mem_cons_self _ _)
      rw [gatherBatch_cons, ih fun q hq => h q (List.mem_cons_of_mem _ hq)]
      simp [hp.1, hp.2]

theorem gatherBatch_abort (failRecv failWrite : ℕ → Bool)
    (l1 : List (ℕ × List ℕ)) (k : ℕ) (buffer : List ℕ)
    (l2 : List (ℕ × List ℕ))
    (h1 : ∀ p ∈ l1, failRecv p.1 = false ∧ failWrite p.1 = false)
    (hf : failRecv k = true ∨ failWrite k = true) :
    gatherBatch failRecv failWrite (l1 ++ (k, buffer) :: l2) =
      ((l1.map Prod.snd).flatten, some k) := by
  revert h1
  induction l1 with
  | nil =>
      intro h1
      simp only [List.nil_append, List.map_nil, List.flatten_nil]
      cases hr : failRecv k with
      | true => rw [gatherBatch_cons]; simp [hr]
      | false =>
          have hw : failWrite k = true := by
            rcases hf with hf | hf
            · rw [hf] at hr; exact absurd hr (by simp)
            · exact hf
          rw [gatherBatch_cons]
          simp [hr, hw]
  | cons p l1 ih =>
      intro h1
      obtain ⟨k1, b1⟩ := p
      have hp := h1 (k1, b1) (List.mem_cons_self _ _)
      rw [List.cons_append, gatherBatch_cons,
        ih fun q hq => h1 q (List.mem_cons_of_mem _ hq)]
      simp [hp.1, hp.2]

theorem gather_spawn_ok (focus_x focus_y : ℚ) (width height : ℕ) (zoom : ℚ)
    (failRecv failWrite : ℕ → Bool) (t k0 : ℕ) (r : ℚ)
    (hok : ∀ j, k0 ≤ j → j < k0 + t →
      failRecv j = false ∧ failWrite j = false) :
    gatherBatch failRecv failWrite
        (spawnBatch focus_x focus_y width height zoom k0 r t).1 =
      (((List.range t).map fun i : ℕ =>
        gen_image focus_x focus_y (r * zoom ^ i) width height).flatten,
       none) := by
  have hmem : ∀ p ∈ (List.range t).map fun i : ℕ =>
      (k0 + i, gen_image focus_x focus_y (r * zoom ^ i) width height),
      failRecv p.1 = false ∧ failWrite p.1 = false := by
    intro p hp
    simp only [List.mem_map, List.mem_range] at hp
    obtain ⟨i, hi, rfl⟩ := hp
    exact hok (k0 + i) (by omega) (by omega)
  simp only [spawnBatch_eq]
  rw [gatherBatch_ok failRecv failWrite _ hmem, List.map_map]
  rfl

theorem gather_spawn_abort (focus_x focus_y : ℚ) (width height : ℕ)
    (zoom : ℚ) (failRecv failWrite : ℕ → Bool) (t k0 k : ℕ) (r : ℚ)
    (hk1 : k0 ≤ k) (hk2 : k < k0 + t)
    (hfail : failRecv k = true ∨ failWrite k = true)
    (hok : ∀ j, k0 ≤ j → j < k →
      failRecv j = false ∧ failWrite j = false) :
    gatherBatch failRecv failWrite
        (spawnBatch focus_x focus_y width height zoom k0 r t).1 =
      (((List.range (k - k0)).map fun i : ℕ =>
        gen_image focus_x focus_y (r * zoom ^ i) width height).flatten,
       some k) := by
  simp only [spawnBatch_eq]
  have hsplit : ((List.range t).map fun i : ℕ =>
      (k0 + i, gen_image focus_x focus_y (r * zoom ^ i) width height)) =
      ((List.range (k - k0)).map fun i : ℕ =>
        (k0 + i, gen_image focus_x focus_y (r * zoom ^ i) width height)) ++
        ((k, gen_image focus_x focus_y (r * zoom ^ (k - k0)) width height) ::
          ((List.range (t - (k - k0) - 1)).map fun i : ℕ =>
            (k0 + (k - k0 + 1 + i),
             gen_image focus_x focus_y (r * zoom ^ (k - k0 + 1 + i))
               width height))) := by
    conv_lhs => rw [show t = (k - k0) + (t - (k - k0)) from by omega]
    rw [List.range_add, List.map_append, List.map_map]
    congr 1
    rw [show t - (k - k0) = (t - (k - k0) - 1) + 1 from by omega,
      List.range_succ_eq_map, List.map_cons, List.map_map]
    congr 1
    · simp only [Function.comp_apply, Nat.add_zero, Prod.mk.injEq]
      exact ⟨by omega, trivial⟩
    · apply List.map_congr_left
      intro i hi
      simp only [Function.comp_apply, Nat.succ_eq_add_one, Prod.mk.injEq]
      refine ⟨by omega, ?_⟩
      rw [show k - k0 + (i + 1) = k - k0 + 1 + i from by omega]
  have hmem : ∀ p ∈ (List.range (k - k0)).map fun i : ℕ =>
      (k0 + i, gen_image focus_x focus_y (r * zoom ^ i) width height),
      failRecv p.1 = false ∧ failWrite p.1 = false := by
    intro p hp
    simp only [List.mem_map, List.mem_range] at hp
    obtain ⟨i, hi, rfl⟩ := hp
    exact hok (k0 + i) (by omega) (by omega)
  rw [hsplit, gatherBatch_abort failRecv failWrite _ k _ _ hmem hfail,
    List.map_map]
  rfl

theorem runLoopsF_zero (focus_x focus_y : ℚ) (width height : ℕ) (zoom : ℚ)
    (threads : ℕ) (failRecv failWrite : ℕ → Bool) (k : ℕ) (range : ℚ) :
    runLoopsF focus_x focus_y width height zoom threads failRecv failWrite
      k range 0 = ([], none, range) := rfl

theorem runLoopsF_succ_ok (focus_x focus_y : ℚ) (width height : ℕ)
    (zoom : ℚ) (threads : ℕ) (failRecv failWrite : ℕ → Bool) (k : ℕ)
    (range : ℚ) (loops : ℕ) (bs : List ℕ)
    (hg : gatherBatch failRecv failWrite
        (spawnBatch focus_x focus_y width height zoom k range threads).1 =
      (bs, none)) :
    runLoopsF focus_x focus_y width height zoom threads failRecv failWrite
        k range (loops + 1) =
      (bs ++ (runLoopsF focus_x focus_y width height zoom threads failRecv
          failWrite (k + threads)
          (spawnBatch focus_x focus_y width height zoom k range threads).2
          loops).1,
       (runLoopsF focus_x focus_y width height zoom threads failRecv
          failWrite (k + threads)
          (spawnBatch focus_x focus_y width height zoom k range threads).2
          loops).2) := by
  have hstep : runLoopsF focus_x focus_y width height zoom threads failRecv
      failWrite k range (loops + 1) =
      (match (gatherBatch failRecv failWrite
          (spawnBatch focus_x focus_y width height zoom k range threads).1).2
        with
      | some j =>
          ((gatherBatch failRecv failWrite
              (spawnBatch focus_x focus_y width height zoom k range
                threads).1).1,
           some j,
           (spawnBatch focus_x focus_y width height zoom k range threads).2)
      | none =>
          ((gatherBatch failRecv failWrite
              (spawnBatch focus_x focus_y width height zoom k range
                threads).1).1 ++
            (runLoopsF focus_x focus_y width height zoom threads failRecv
              failWrite (k + threads)
              (spawnBatch focus_x focus_y width height zoom k range
                threads).2 loops).1,
           (runLoopsF focus_x focus_y width height zoom threads failRecv
              failWrite (k + threads)
              (spawnBatch focus_x focus_y width height zoom k range
                threads).2 loops).2)) := rfl
  rw [hstep, hg]

theorem runLoopsF_succ_abort (focus_x focus_y : ℚ) (width height : ℕ)
    (zoom : ℚ) (threads : ℕ) (failRecv failWrite : ℕ → Bool) (k : ℕ)
    (range : ℚ) (loops : ℕ) (j : ℕ) (bs : List ℕ)
    (hg : gatherBatch failRecv failWrite
        (spawnBatch focus_x focus_y width height zoom k range threads).1 =
      (bs, some j)) :
    runLoopsF focus_x focus_y width height zoom threads failRecv failWrite
        k range (loops + 1) =
      (bs, some j,
       (spawnBatch focus_x focus_y width height zoom k range threads).2) := by
  have hstep : runLoopsF focus_x focus_y width height zoom threads failRecv
      failWrite k range (loops + 1) =
      (match (gatherBatch failRecv failWrite
          (spawnBatch focus_x focus_y width height zoom k range threads).1).2
        with
      | some j =>
          ((gatherBatch failRecv failWrite
              (spawnBatch focus_x focus_y width height zoom k range
                threads).1).1,
           some j,
           (spawnBatch focus_x focus_y width height zoom k range threads).2)
      | none =>
          ((gatherBatch failRecv failWrite
              (spawnBatch focus_x focus_y width height zoom k range
                threads).1).1 ++
            (runLoopsF focus_x focus_y width height zoom threads failRecv
              failWrite (k + threads)
              (spawnBatch focus_x focus_y width height zoom k range
                threads).2 loops).1,
           (runLoopsF focus_x focus_y width height zoom threads failRecv
              failWrite (k + threads)
              (spawnBatch focus_x focus_y width height zoom k range
                threads).2 loops).2)) := rfl
  rw [hstep, hg]

theorem flatten_gen_append (focus_x focus_y : ℚ) (width height : ℕ)
    (zoom r : ℚ) (a b : ℕ) :
    (((List.range a).map fun i : ℕ =>
        gen_image focus_x focus_y (r * zoom ^ i) width height).flatten ++
      ((List.range b).map fun i : ℕ =>
        gen_image focus_x focus_y (r * zoom ^ a * zoom ^ i) width
          height).flatten) =
      ((List.range (a + b)).map fun i : ℕ =>
        gen_image focus_x focus_y (r * zoom ^ i) width height).flatten := by
  rw [List.range_add, List.map_append, List.flatten_append, List.map_map]
  congr 2
  apply List.map_congr_left
  intro i hi
  simp only [Function.comp_apply]
  rw [show r * zoom ^ a * zoom ^ i = r * zoom ^ (a + i) from by
    rw [mul_assoc, ← pow_add]]

theorem runLoopsF_ok (focus_x focus_y : ℚ) (width height : ℕ) (zoom : ℚ)
    (threads : ℕ) (failRecv failWrite : ℕ → Bool) (loops : ℕ) :
    ∀ (k : ℕ) (range : ℚ),
      (∀ j, k ≤ j → j < k + loops * threads →
        failRecv j = false ∧ failWrite j = false) →
      runLoopsF focus_x focus_y width height zoom threads failRecv failWrite
          k range loops =
        (((List.range (loops * threads)).map fun i : ℕ =>
            gen_image focus_x focus_y (range * zoom ^ i) width
              height).flatten,
         none, range * zoom ^ (loops * threads)) := by
  induction loops with
  | zero =>
      intro k range h
      simp [runLoopsF_zero]
  | succ loops ih =>
      intro k range h
      have hmul : threads + loops * threads = (loops + 1) * threads := by
        ring
      have hok : ∀ j, k ≤ j → j < k + threads →
          failRecv j = false ∧ failWrite j = false :=
        fun j hj1 hj2 => h j hj1 (by omega)
      rw [runLoopsF_succ_ok focus_x focus_y width height zoom threads
        failRecv failWrite k range loops _
        (gather_spawn_ok focus_x focus_y width height zoom failRecv
          failWrite threads k range hok)]
      simp only [spawnBatch_eq]
      rw [ih (k + threads) (range * zoom ^ threads)
        (fun j hj1 hj2 => h j (by omega) (by omega))]
      simp only [Prod.mk.injEq]
      refine ⟨?_, trivial, ?_⟩
      · rw [flatten_gen_append, hmul]
      · rw [mul_assoc, ← pow_add, hmul]

theorem runLoopsF_abort (focus_x focus_y : ℚ) (width height : ℕ) (zoom : ℚ)
    (threads : ℕ) (failRecv failWrite : ℕ → Bool) (loops : ℕ) :
    ∀ (k0 : ℕ) (range : ℚ) (k : ℕ),
      k0 ≤ k → k < k0 + loops * threads →
      (failRecv k = true ∨ failWrite k = true) →
      (∀ j, k0 ≤ j → j < k → failRecv j = false ∧ failWrite j = false) →
      (runLoopsF focus_x focus_y width height zoom threads failRecv
          failWrite k0 range loops).1 =
        ((List.range (k - k0)).map fun i : ℕ =>
          gen_image focus_x focus_y (range * zoom ^ i) width
            height).flatten ∧
      (runLoopsF focus_x focus_y width height zoom threads failRecv
          failWrite k0 range loops).2.1 = some k := by
  induction loops with
  | zero =>
      intro k0 range k hk1 hk2 hfail hok
      exact absurd hk2 (by omega)
  | succ loops ih =>
      intro k0 range k hk1 hk2 hfail hok
      have hmul : threads + loops * threads = (loops + 1) * threads := by
        ring
      by_cases hcase : k < k0 + threads
      · have hg := gather_spawn_abort focus_x focus_y width height zoom
          failRecv failWrite threads k0 k range hk1 hcase hfail hok
        rw [runLoopsF_succ_abort focus_x focus_y width height zoom threads
          failRecv failWrite k0 range loops k _ hg]
        exact ⟨rfl, rfl⟩
      · have hok2 : ∀ j, k0 ≤ j → j < k0 + threads →
            failRecv j = false ∧ failWrite j = false :=
          fun j hj1 hj2 => hok j hj1 (by omega)
        rw [runLoopsF_succ_ok focus_x focus_y width height zoom threads
          failRecv failWrite k0 range loops _
          (gather_spawn_ok focus_x focus_y width height zoom failRecv
            failWrite threads k0 range hok2)]
        simp only [spawnBatch_eq]
        have hrec := ih (k0 + threads) (range * zoom ^ threads) k (by omega)
          (by omega) hfail (fun j hj1 hj2 => hok j (by omega) hj2)
        constructor
        · rw [hrec.1, flatten_gen_append,
            show threads + (k - (k0 + threads)) = k - k0 from by omega]
        · exact hrec.2

/-- C9: if any worker's result never arrives (`failRecv`) or a write to the
output sink fails (`failWrite`) at frame `k`, the scheduler aborts the
entire run at `k`: the bytes written are exactly the buffers of frames
`0, …, k-1` (no partial-batch retry, no skipping of the broken frame) and
no frame at or after the failure point is written. -/
theorem mainRunF_abort_spec (cfg : Config) (failRecv failWrite : ℕ → Bool)
    (k : ℕ) (ht : 1 ≤ cfg.threads) (hk : k < cfg.frames)
    (hfail : failRecv k = true ∨ failWrite k = true)
    (hbefore : ∀ j, j < k → failRecv j = false ∧ failWrite j = false) :
    mainRunF cfg failRecv failWrite =
      (((List.range k).map (frameBuffer cfg)).flatten, some k) := by
  have hle : cfg.frames / cfg.threads * cfg.threads ≤ cfg.frames :=
    Nat.div_mul_le_self cfg.frames cfg.threads
  have hmap : ∀ m : ℕ, ((List.range m).map fun i : ℕ =>
      gen_image cfg.focus_x cfg.focus_y (cfg.range * cfg.zoom ^ i)
        cfg.width cfg.height) = (List.range m).map (frameBuffer cfg) := by
    intro m
    apply List.map_congr_left
    intro i hi
    rfl
  by_cases hcase : k < cfg.frames / cfg.threads * cfg.threads
  · have habort := runLoopsF_abort cfg.focus_x cfg.focus_y cfg.width
      cfg.height cfg.zoom cfg.threads failRecv failWrite
      (cfg.frames / cfg.threads) 0 cfg.range k (Nat.zero_le k) (by omega)
      hfail (fun j hj1 hj2 => hbefore j hj2)
    simp only [mainRunF]
    rw [habort.2, habort.1, Nat.sub_zero, hmap k]
  · have hok := runLoopsF_ok cfg.focus_x cfg.focus_y cfg.width cfg.height
      cfg.zoom cfg.threads failRecv failWrite (cfg.frames / cfg.threads)
      0 cfg.range (fun j hj1 hj2 => hbefore j (by omega))
    have hab := gather_spawn_abort cfg.focus_x cfg.focus_y cfg.width
      cfg.height cfg.zoom failRecv failWrite
      (cfg.frames - cfg.frames / cfg.threads * cfg.threads)
      (cfg.frames / cfg.threads * cfg.threads) k
      (cfg.range * cfg.zoom ^ (cfg.frames / cfg.threads * cfg.threads))
      (by omega) (by omega) hfail
      (fun j hj1 hj2 => hbefore j hj2)
    simp only [mainRunF]
    rw [hok]
    simp only []
    rw [hab]
    simp only [Prod.mk.injEq]
    refine ⟨?_, trivial⟩
    have hcomb := flatten_gen_append cfg.focus_x cfg.focus_y cfg.width
      cfg.height cfg.zoom cfg.range
      (cfg.frames / cfg.threads * cfg.threads)
      (k - cfg.frames / cfg.threads * cfg.threads)
    rw [hcomb, show cfg.frames / cfg.threads * cfg.threads +
      (k - cfg.frames / cfg.threads * cfg.threads) = k from by omega,
      hmap k]

/-- Witness for C9: one frame, one thread, the result channel of frame 0
disconnected — nothing is written and the run aborts at frame 0. -/
theorem mainRunF_abort_spec_witness :
    1 ≤ (Config.mk 0 0 4 1 1 1 1 1).threads ∧ 0 < (Config.mk 0 0 4 1 1 1 1 1).frames ∧
      mainRunF (Config.mk 0 0 4 1 1 1 1 1) (fun _ => true) (fun _ => false) =
        (((List.range 0).map (frameBuffer (Config.mk 0 0 4 1 1 1 1 1))).flatten,
         some 0) :=
  ⟨by norm_num, by norm_num,
   mainRunF_abort_spec (Config.mk 0 0 4 1 1 1 1 1) (fun _ => true)
     (fun _ => false) 0 (by norm_num) (by norm_num) (Or.inl rfl)
     (fun j hj => absurd hj (by omega))⟩

end Mandelart
